import Mathlib

/-!
Verification of the crosswalk discrete-event simulation (`sim.py`, `simutils.py`).

Shallow embedding conventions:
* Python floats are idealized as exact rationals (`ℚ`); the two functions that
  call `math.log` (`exponential`, `geometric`) are embedded over the reals with
  `Real.log`.
* Python exceptions are embedded with `Except PyExc`; a generator's fallible
  advance is likewise an `Except`.
* The mutable manager objects (`PedManager`, `CarManager`, the scheduler) are
  embedded as explicit state records with one transition function per method,
  translated line by line from the source.  A run of the program is a list of
  operations folded over the state; the scheduler guarantees that justify the
  shape of those operation lists (unique ids, an exit event per spawned car,
  non-decreasing dispatch times) appear as explicit hypotheses.
* Delay samples pushed into a `Welford` accumulator are recorded as `(id, value)`
  pairs; the id tag is observable in the source because every insertion is
  accompanied by a log line naming the subject (`"Car {id} has left ..."`,
  `"Ped {ped.id} has crossed ..."`).
-/

/- ====================  Simulation constants (sim.py lines 24-36)  ==================== -/

def BLOCKWIDTH : ℚ := 330
def STREETWIDTH : ℚ := 46
def CROSSWIDTH : ℚ := 24
def REDTIMEOUT : ℚ := 18
def YELLOWTIMEOUT : ℚ := 8
def GREENTIMEOUT : ℚ := 35
def LENGTH : ℚ := 9
def VJA : ℚ := 100 / 3
def VJB : ℚ := 154 / 3
def CARACC : ℚ := 10
def VKA : ℚ := 26 / 10
def VKB : ℚ := 41 / 10
def MAXPEDS : ℕ := 20

/- ====================  Enum types (sim.py lines 42-56)  ==================== -/

inductive EventType where
  | TimerExpire
  | PedSpawn
  | PedArrive
  | PedImpatient
  | CarSpawn
  | CarArrive
  | CarExit
deriving DecidableEq, Repr

inductive LightState where
  | GREEN
  | YELLOW
  | RED
  | GREENWAIT
  | GREENWAITPRESSED
deriving DecidableEq, Repr

/- ====================  Python exceptions  ==================== -/

/-- Exceptions that the embedded code can raise. -/
inductive PyExc where
  | stopIteration
  | runtimeError
  | valueError
  | zeroDivisionError
  | notImplementedError
deriving DecidableEq, Repr

/- ====================  Variate generator (simutils.py lines 160-199)  ==================== -/

/-- Python `bernouli(p)` applied to an already-drawn uniform value `u`
(simutils.py line 162-164): `return u >= 1.0 - p`. -/
def bernouli (p u : ℚ) : Bool :=
  decide (u ≥ 1 - p)

/-- Python `int(x)` on a float: truncation toward zero. -/
def pyInt (x : ℚ) : ℤ :=
  if 0 ≤ x then ⌊x⌋ else ⌈x⌉

/-- Python `equilikely(a, b)` applied to a drawn value `u`
(simutils.py lines 175-177): `return a + int((b - a + 1) * u)`. -/
def equilikely (a b : ℤ) (u : ℚ) : ℤ :=
  a + pyInt (((b : ℚ) - (a : ℚ) + 1) * u)

/-- Python `uniform(a, b)` applied to a drawn value `u`
(simutils.py lines 187-189): `return a + ((b - a) * u)`. -/
def uniform (a b u : ℚ) : ℚ :=
  a + (b - a) * u

/-- Python `pascal(n, p)` (simutils.py lines 167-168): always raises
`NotImplementedError`. -/
def pascal (_n : ℕ) (_p : ℚ) : Except PyExc ℤ :=
  .error .notImplementedError

/-- Python `binomial(n, p)` (simutils.py lines 171-172): always raises
`NotImplementedError`. -/
def binomial (_n : ℕ) (_p : ℚ) : Except PyExc ℤ :=
  .error .notImplementedError

/-- Python `normal(mean, stddev)` (simutils.py lines 192-193): always raises
`NotImplementedError`. -/
def normal (_mean _stddev : ℚ) : Except PyExc ℚ :=
  .error .notImplementedError

/-- Python `int(x)` on a real: truncation toward zero. -/
noncomputable def pyIntR (x : ℝ) : ℤ :=
  if 0 ≤ x then ⌊x⌋ else ⌈x⌉

open Classical in
/-- Python `exponential(l)` applied to a drawn value `u` (simutils.py lines
196-199): raises `ValueError` for `l <= 0.0`, otherwise returns
`-l * math.log(1.0 - u)`. -/
noncomputable def exponential (l u : ℝ) : Except PyExc ℝ :=
  if l ≤ 0 then .error .valueError
  else .ok (-l * Real.log (1 - u))

open Classical in
/-- Python `geometric(l)` applied to a drawn value `u` (simutils.py lines
180-183): raises `ValueError` for `l <= 0.0`; for `l = 1` the division by
`math.log(l) = 0.0` raises `ZeroDivisionError`; otherwise it returns
`int(math.log(1.0 - u) / math.log(l))`. -/
noncomputable def geometric (l u : ℝ) : Except PyExc ℤ :=
  if l ≤ 0 then .error .valueError
  else if Real.log l = 0 then .error .zeroDivisionError
  else .ok (pyIntR (Real.log (1 - u) / Real.log l))

/- ====================  Welford accumulator (simutils.py lines 75-108)  ==================== -/

structure Welford where
  avg : ℚ
  var : ℚ
  i : ℕ
deriving DecidableEq, Repr

/-- Fresh accumulator (simutils.py lines 76-80). -/
def welfordInit : Welford := ⟨0, 0, 0⟩

/-- `Welford.insert` (simutils.py lines 85-99): `i += 1`;
`avg = self.avg + ((x - self.avg) / self.i)`;
`var = self.var + ((self.i - 1) * ((x - self.avg) ** 2) / self.i)`
with `self.avg` still the pre-update mean in both right-hand sides. -/
def Welford.insert (w : Welford) (x : ℚ) : Welford :=
  let i : ℕ := w.i + 1
  let avg : ℚ := w.avg + (x - w.avg) / (i : ℚ)
  let var : ℚ := w.var + ((i : ℚ) - 1) * (x - w.avg) ^ 2 / (i : ℚ)
  ⟨avg, var, i⟩

/-- `Welford.mean` (simutils.py lines 101-102). -/
def Welford.mean (w : Welford) : ℚ := w.avg

/-- `Welford.variance` (simutils.py lines 104-105):
`(self.var / self.i) if self.i > 0 else 0`. -/
def Welford.variance (w : Welford) : ℚ :=
  if w.i > 0 then w.var / (w.i : ℚ) else 0

/-- Accumulator state after inserting the samples of `xs` in order. -/
def welfordRun (xs : List ℚ) : Welford :=
  xs.foldl Welford.insert welfordInit

/- ====================  Token trace-stream reader (simutils.py lines 15-59)  ==================== -/

/-- Remaining lines of a trace file; `some q` is a line parsing as the float
`q`, `none` is a malformed (non-numeric or empty) line. -/
abbrev TraceLines := List (Option ℚ)

/-- One advance of the generator `Token.iterate` (simutils.py lines 45-48).
The generator body executes `raise StopIteration` when `float(line)` raises
`ValueError`; under Python ≥ 3.7 (PEP 479) a `StopIteration` raised inside a
generator body is replaced by `RuntimeError` at the generator boundary, so the
caller of `next` observes `RuntimeError` on a malformed line and a genuine
`StopIteration` only when the file is exhausted. -/
def tokenIterate (ls : TraceLines) : Except PyExc (ℚ × TraceLines) :=
  match ls with
  | [] => .error .stopIteration
  | none :: _ => .error .runtimeError
  | some q :: rest => .ok (q, rest)

/-- `Token.next` (simutils.py lines 51-59): returns the next value; on
`StopIteration` prints a diagnostic and returns `0.0`; any other exception
(in particular the PEP 479 `RuntimeError`) propagates to the caller. -/
def tokenNext (ls : TraceLines) : Except PyExc (ℚ × TraceLines) :=
  match tokenIterate ls with
  | .ok (q, rest) => .ok (q, rest)
  | .error .stopIteration => .ok (0, [])
  | .error e => .error e

/- ====================  Light controller (sim.py lines 72-124)  ==================== -/

structure LightS where
  state : LightState
  walkexpire : ℚ
deriving DecidableEq, Repr

/-- Side effects of one light handler call: absolute times of the scheduled
`TimerExpire` events (`self.sim.insert(delta, ...)` schedules at
`self.sim.time + delta`), the `lightchange` calls made on the car manager, and
the number of `deploy` calls made on the pedestrian manager. -/
structure LightEff where
  timers : List ℚ
  notifies : List LightState
  deploys : ℕ
deriving DecidableEq, Repr

/-- `Light.press` (sim.py lines 115-124); `ownTime` is the owning
simulation's clock `self.sim.time`. -/
def lightPress (l : LightS) (ownTime : ℚ) : LightS × LightEff :=
  match l.state with
  | .GREENWAIT => ({ l with state := .GREENWAITPRESSED }, ⟨[], [], 0⟩)
  | .GREEN =>
      ({ l with state := .YELLOW },
       ⟨[ownTime + YELLOWTIMEOUT], [.YELLOW], 0⟩)
  | _ => (l, ⟨[], [], 0⟩)

/-- `Light.timer` (sim.py lines 87-112).  `ownTime` is the owning simulation's
clock `self.sim.time`, used by every `self.sim.insert`; `globalTime` is the
clock of the module-level name `sim`, which the YELLOW branch reads on line 104
(`self.walkexpire = sim.time + REDTIMEOUT` - note the unscoped `sim`, not
`self.sim`).  The two coincide only when the light's owner is the very
`Simulation` bound to the module-level `sim` by the `__main__` block. -/
def lightTimer (l : LightS) (ownTime globalTime : ℚ) : LightS × LightEff :=
  match l.state with
  | .GREENWAITPRESSED =>
      ({ l with state := .YELLOW },
       ⟨[ownTime + YELLOWTIMEOUT], [.YELLOW], 0⟩)
  | .GREENWAIT => ({ l with state := .GREEN }, ⟨[], [], 0⟩)
  | .GREEN => (l, ⟨[], [], 0⟩)
  | .YELLOW =>
      (⟨.RED, globalTime + REDTIMEOUT⟩,
       ⟨[ownTime + REDTIMEOUT], [], 1⟩)
  | .RED =>
      ({ l with state := .GREENWAIT },
       ⟨[ownTime + GREENTIMEOUT], [.GREEN], 0⟩)

/- ====================  Pedestrian manager (sim.py lines 127-236)  ==================== -/

structure Ped where
  id : ℕ
  at0 : ℚ      -- `self.at`, the spawn time
  speed : ℚ
  atlight : ℚ
  walktime : ℚ
deriving DecidableEq, Repr

/-- `Ped.__init__` (sim.py lines 128-133) with the uniform draw `u` already
taken from the pedestrian stream: `speed = uniform(VKA, VKB, ptoken)`,
`atlight = (BLOCKWIDTH + STREETWIDTH) / speed`, `walktime = STREETWIDTH / speed`. -/
def mkPed (i : ℕ) (t u : ℚ) : Ped :=
  let speed := uniform VKA VKB u
  ⟨i, t, speed, (BLOCKWIDTH + STREETWIDTH) / speed, STREETWIDTH / speed⟩

/-- Pedestrian-manager state (sim.py lines 139-143) together with the
`(id, delay)` pairs pushed into `sim.peddelay`. -/
structure PedState where
  walking : List Ped
  waiting : List Ped
  count : ℕ
  samples : List (ℕ × ℚ)
deriving DecidableEq, Repr

/-- Remove the first element with the given id from a pedestrian list,
returning the remaining list and the removed element. -/
def removePed (i : ℕ) : List Ped → List Ped × Option Ped
  | [] => ([], none)
  | p :: rest =>
      if p.id = i then (rest, some p)
      else
        let q := removePed i rest
        (p :: q.1, q.2)

/-- `PedManager.getped` with `popped = True` (sim.py lines 155-166): search
`walking` first and pop the match there, otherwise pop from `waiting`. -/
def getpedPop (st : PedState) (i : ℕ) : PedState :=
  let w := removePed i st.walking
  match w.2 with
  | some _ => { st with walking := w.1 }
  | none =>
      let q := removePed i st.waiting
      { st with waiting := q.1 }

/-- `PedManager.cross` (sim.py lines 214-225): if the per-phase counter is
below `MAXPEDS`, record `delay = self.sim.time - ped.at - ped.atlight` and
count the crossing; otherwise raise `StopIteration` (`none`). -/
def crossStep (st : PedState) (p : Ped) (t : ℚ) : Option PedState :=
  if st.count < MAXPEDS then
    some { st with
             count := st.count + 1,
             samples := st.samples ++ [(p.id, t - p.at0 - p.atlight)] }
  else none

/-- Loop body of `PedManager.deploy` (sim.py lines 230-236): iteration `i`
reads `ped = self.waiting[i - self.count]`, pops it via `getped(ped.id)`, and
attempts `cross(ped)`; a `StopIteration` from `cross` breaks the loop (after
`getped` has already removed the pedestrian).  The `none` branch of the index
lookup corresponds to a Python `IndexError`, which is unreachable here because
in every reachable iteration `i - self.count = 0 < len(self.waiting)`. -/
def deployGo (t : ℚ) : ℕ → ℕ → PedState → PedState
  | 0, _, st => st
  | k + 1, i, st =>
      match st.waiting.get? (i - st.count) with
      | none => st
      | some ped =>
          let st1 := getpedPop st ped.id
          match crossStep st1 ped t with
          | some st2 => deployGo t k (i + 1) st2
          | none => st1

/-- `PedManager.deploy` (sim.py lines 228-236): reset `self.count` to 0 and
run the loop `for i in range(len(self.waiting))`. -/
def deployStep (st : PedState) (t : ℚ) : PedState :=
  deployGo t st.waiting.length 0 { st with count := 0 }

/- ====================  Car manager (sim.py lines 239-333)  ==================== -/

structure Car where
  id : ℕ
  atime : ℚ
  speed : ℚ
  brakedist : ℚ
  braketime : ℚ
  shouldstop : Bool
  stoptime : ℚ
deriving DecidableEq, Repr

/-- `Car.__init__` (sim.py lines 240-247) with the uniform draw `u` already
taken from the auto stream: `speed = uniform(VJA, VJB, atoken)`,
`brakedist = speed ** 2 / (2 * CARACC)`, `braketime = speed / CARACC`,
`shouldstop = False`, `stoptime = -1`. -/
def mkCar (i : ℕ) (t u : ℚ) : Car :=
  let speed := uniform VJA VJB u
  ⟨i, t, speed, speed ^ 2 / (2 * CARACC), speed / CARACC, false, -1⟩

/-- `CarManager.total` (sim.py line 258): `(7 * BLOCKWIDTH) + (6 * STREETWIDTH)`. -/
def totalDrive : ℚ := 7 * BLOCKWIDTH + 6 * STREETWIDTH

/-- `CarManager.before` (sim.py line 259): `(total - CROSSWIDTH) / 2`. -/
def beforeDist : ℚ := (totalDrive - CROSSWIDTH) / 2

/-- `CarManager.after` (sim.py line 260): `((total + CROSSWIDTH) / 2) + LENGTH`. -/
def afterDist : ℚ := (totalDrive + CROSSWIDTH) / 2 + LENGTH

/-- First bound of `CarManager.lightchange` on YELLOW (sim.py line 277):
`posa = (self.sim.time + YELLOWTIMEOUT - car.atime) / car.speed`. -/
def posA (c : Car) (t : ℚ) : ℚ :=
  (t + YELLOWTIMEOUT - c.atime) / c.speed

/-- Second bound of `CarManager.lightchange` on YELLOW (sim.py line 278):
`posb = (self.sim.time + YELLOWTIMEOUT + REDTIMEOUT - car.atime) / car.speed`. -/
def posB (c : Car) (t : ℚ) : ℚ :=
  (t + YELLOWTIMEOUT + REDTIMEOUT - c.atime) / c.speed

/-- Stop test of `CarManager.lightchange` on YELLOW (sim.py line 279):
`posa < self.after or posb > self.before`. -/
def stopCond (c : Car) (t : ℚ) : Bool :=
  decide (posA c t < afterDist) || decide (posB c t > beforeDist)

/-- Modelled from the spec: the projected position of a car elapsed to
absolute time `T` under free-flow speed, "distance traveled equals speed times
the time elapsed since the car's spawn".  This is the quantity the spec says
`OnYellow` computes; it is kept separate from `posA`/`posB` (the quantities
the source actually computes) so the two can be compared. -/
def specPos (c : Car) (T : ℚ) : ℚ :=
  c.speed * (T - c.atime)

/-- Modelled from the spec: the `OnYellow` marking rule stated over projected
positions - mark should-stop when the position at end-of-yellow has not
cleared the after-crosswalk point, or the position at end-of-yellow-plus-red
is already past the before-crosswalk point. -/
def specStopCond (c : Car) (t : ℚ) : Bool :=
  decide (specPos c (t + YELLOWTIMEOUT) < afterDist) ||
    decide (specPos c (t + YELLOWTIMEOUT + REDTIMEOUT) > beforeDist)

/-- YELLOW branch of `CarManager.lightchange` applied to one driving car
(sim.py lines 274-281): set `shouldstop` when `stopCond` holds, leave the car
unchanged otherwise. -/
def yellowMark (t : ℚ) (c : Car) : Car :=
  if stopCond c t then { c with shouldstop := true } else c

/-- Delay computed by the GREEN branch of `CarManager.lightchange` for one
released car (sim.py lines 290-296): `basetime = (total - 2*brakedist)/speed`;
`acctime = braketime`; `stoptime = self.sim.time - car.stoptime`;
`delay = (basetime + acctime + stoptime) - total/speed`. -/
def greenDelay (c : Car) (t : ℚ) : ℚ :=
  let basetime := (totalDrive - 2 * c.brakedist) / c.speed
  let acctime := c.braketime
  let stopt := t - c.stoptime
  basetime + acctime + stopt - totalDrive / c.speed

/-- `CarManager.arrive` list update (sim.py lines 308-322): walk `driving`
to the first car with the given id; if `car.shouldstop` and the light is
YELLOW or RED, pop it (the popped car, stamped with `stoptime = t`, is
appended to `stopped` by the caller); otherwise stamp `stoptime = t` in
place.  Returns the new `driving` list and the car moved to `stopped`. -/
def arriveUpd (i : ℕ) (t : ℚ) (ls : LightState) : List Car → List Car × Option Car
  | [] => ([], none)
  | c :: rest =>
      if c.id = i then
        if c.shouldstop ∧ (ls = .YELLOW ∨ ls = .RED) then
          (rest, some { c with stoptime := t })
        else
          ({ c with stoptime := t } :: rest, none)
      else
        let p := arriveUpd i t ls rest
        (c :: p.1, p.2)

/-- `CarManager.exit` list update (sim.py lines 325-333): pop the first car
with the given id from `driving`, if present. -/
def removeCar (i : ℕ) : List Car → List Car × Option Car
  | [] => ([], none)
  | c :: rest =>
      if c.id = i then (rest, some c)
      else
        let p := removeCar i rest
        (c :: p.1, p.2)

/-- Car-manager state (sim.py lines 254-257) together with the `(id, delay)`
pairs pushed into `sim.cardelay`. -/
structure CMState where
  driving : List Car
  stopped : List Car
  samples : List (ℕ × ℚ)
deriving DecidableEq, Repr

/-- The car-manager entry points, as invoked by the scheduler and the light:
`spawn` (sim.py lines 302-306, list part), `lightchange(YELLOW)` and
`lightchange(GREEN)` (sim.py lines 272-299), `arrive` (lines 308-322) and
`exit` (lines 325-333).  Each operation carries the simulation clock at which
it runs; `arrive` also carries the light state it observes. -/
inductive COp where
  | spawn (c : Car)
  | onYellow (t : ℚ)
  | onGreen (t : ℚ)
  | arrive (i : ℕ) (t : ℚ) (ls : LightState)
  | exit (i : ℕ) (t : ℚ)
deriving DecidableEq, Repr

/-- One car-manager step, translated method by method from the source.
`onGreen` pops `stopped` from the tail (`self.stopped.pop()`), `len(stopped)`
times, recording each released car's delay - i.e. it samples `stopped` in
reverse order and empties it. -/
def stepCM (st : CMState) : COp → CMState
  | .spawn c => { st with driving := st.driving ++ [c] }
  | .onYellow t => { st with driving := st.driving.map (yellowMark t) }
  | .onGreen t =>
      { st with
          stopped := [],
          samples := st.samples ++ st.stopped.reverse.map (fun c => (c.id, greenDelay c t)) }
  | .arrive i t ls =>
      let p := arriveUpd i t ls st.driving
      { st with driving := p.1, stopped := st.stopped ++ p.2.toList }
  | .exit i _ =>
      let p := removeCar i st.driving
      match p.2 with
      | some c => { st with driving := p.1, samples := st.samples ++ [(c.id, 0)] }
      | none => st

/-- Car-manager state after a sequence of operations, from the empty initial
state (sim.py lines 254-257). -/
def runCM (ops : List COp) : CMState :=
  ops.foldl stepCM ⟨[], [], []⟩

/-- Id-counting predicate on cars. -/
def pid (j : ℕ) : Car → Bool := fun c => c.id == j

/-- Id-counting predicate on delay samples. -/
def sid (j : ℕ) : ℕ × ℚ → Bool := fun pr => pr.1 == j

/-- Number of cars with the given id on the driving list. -/
def dcount (st : CMState) (i : ℕ) : ℕ :=
  st.driving.countP (pid i)

/-- Number of cars with the given id on the stopped list. -/
def scount (st : CMState) (i : ℕ) : ℕ :=
  st.stopped.countP (pid i)

/-- Number of delay samples recorded for the given id. -/
def ncount (st : CMState) (i : ℕ) : ℕ :=
  st.samples.countP (sid i)

/-- Number of spawn operations for the given id in an operation list. -/
def spawnsCount (ops : List COp) (i : ℕ) : ℕ :=
  ops.countP (fun o => match o with | .spawn c => c.id == i | _ => false)

/-- The cars spawned by an operation list. -/
def carSpawns (ops : List COp) : List Car :=
  ops.filterMap (fun o => match o with | .spawn c => some c | _ => none)

/-- The simulation-clock value at which an operation runs (a spawn runs at the
spawned car's arrival time `atime`). -/
def opTime : COp → ℚ
  | .spawn c => c.atime
  | .onYellow t => t
  | .onGreen t => t
  | .arrive _ t _ => t
  | .exit _ t => t

/-- Field discipline every car built by `Car.__init__` satisfies: a positive
speed (the draw `uniform(VJA, VJB, u)` with `u ∈ (0,1)` lies in
`(VJA, VJB)`), and the braking fields derived exactly as on sim.py lines
244-245. -/
def WfCar (c : Car) : Prop :=
  0 < c.speed ∧ c.brakedist = c.speed ^ 2 / (2 * CARACC) ∧ c.braketime = c.speed / CARACC

/- ====================  Scheduler (sim.py lines 63-70 and 341-401)  ==================== -/

/-- `Event` (sim.py lines 63-70): ordered by `at` alone. -/
structure Ev where
  at0 : ℚ
  type : EventType
  id : ℤ
deriving DecidableEq, Repr

/-- Scheduler state: the clock and the pending-event collection.  Python
stores the events in a `heapq` min-heap on `Event.__lt__` (i.e. on `at`);
the list here carries the same multiset of events. -/
structure SchedSt where
  time : ℚ
  queue : List Ev
deriving DecidableEq, Repr

/-- One scheduler transition.  `insert` is `Simulation.insert` (sim.py lines
386-389): the event is placed at absolute time `clock + delta`; the `0 ≤ delta`
premise records that every call site passes a non-negative delay.  `dispatch`
is the head of `Simulation.next` (sim.py lines 398-401): `heappop` removes an
event that is minimal in the `Event.__lt__` order (any one of them when
several share the minimal time - the heap's tie-break is unspecified), and the
clock advances to its time. -/
inductive SStep : SchedSt → SchedSt → Prop where
  | insert (s : SchedSt) (delta : ℚ) (ty : EventType) (i : ℤ) (hd : 0 ≤ delta) :
      SStep s ⟨s.time, s.queue ++ [⟨s.time + delta, ty, i⟩]⟩
  | dispatch (s : SchedSt) (e : Ev) (rest : List Ev)
      (hperm : s.queue.Perm (e :: rest))
      (hmin : ∀ e2 ∈ s.queue, e.at0 ≤ e2.at0) :
      SStep s ⟨e.at0, rest⟩

/-- Scheduler invariant: no pending event lies in the clock's past. -/
def SchedInv (s : SchedSt) : Prop :=
  ∀ e ∈ s.queue, s.time ≤ e.at0

/-- Delay used by `PedManager.spawn` for the `PedArrive` event (sim.py line
179): `ped.atlight`. -/
def pedArriveDelta (p : Ped) : ℚ := p.atlight

/-- Delay used by `CarManager.spawn` for the `CarArrive` event (sim.py line
304): `(self.before - car.brakedist) / car.speed`. -/
def carArriveDelta (c : Car) : ℚ := (beforeDist - c.brakedist) / c.speed

/-- Delay used by `CarManager.spawn` for the `CarExit` event (sim.py line
305): `self.total / car.speed`. -/
def carExitDelta (c : Car) : ℚ := totalDrive / c.speed

/- ====================  Counting lemmas for the car manager  ==================== -/

theorem arriveUpd_countP (i : ℕ) (t : ℚ) (ls : LightState) (j : ℕ) :
    ∀ l : List Car,
      (arriveUpd i t ls l).1.countP (pid j) +
        ((arriveUpd i t ls l).2.toList).countP (pid j) = l.countP (pid j) := by
  intro l
  induction l with
  | nil => simp [arriveUpd]
  | cons c rest ih =>
    rw [arriveUpd]
    by_cases hc : c.id = i
    · rw [if_pos hc]
      by_cases hstop : (c.shouldstop : Prop) ∧ (ls = .YELLOW ∨ ls = .RED)
      · rw [if_pos hstop]
        simp only [Option.toList_some, List.countP_cons, List.countP_nil]
        have hid : pid j { c with stoptime := t } = pid j c := rfl
        rw [hid]
        omega
      · rw [if_neg hstop]
        simp only [Option.toList_none, List.countP_cons, List.countP_nil]
        have hid : pid j { c with stoptime := t } = pid j c := rfl
        rw [hid]
        omega
    · rw [if_neg hc]
      simp only [List.countP_cons]
      omega

theorem arriveUpd_wf (i : ℕ) (t : ℚ) (ls : LightState) :
    ∀ l : List Car, (∀ c ∈ l, WfCar c) →
      (∀ c ∈ (arriveUpd i t ls l).1, WfCar c) ∧
        (∀ c ∈ (arriveUpd i t ls l).2.toList, WfCar c ∧ c.stoptime = t) := by
  intro l
  induction l with
  | nil =>
    intro _
    simp [arriveUpd]
  | cons c rest ih =>
    intro hwf
    have hwfc : WfCar c := hwf c (List.mem_cons_self c rest)
    have hwfr : ∀ c2 ∈ rest, WfCar c2 := fun c2 h2 => hwf c2 (List.mem_cons_of_mem c h2)
    have hwfmod : WfCar { c with stoptime := t } := hwfc
    rw [arriveUpd]
    by_cases hc : c.id = i
    · rw [if_pos hc]
      by_cases hstop : (c.shouldstop : Prop) ∧ (ls = .YELLOW ∨ ls = .RED)
      · rw [if_pos hstop]
        refine ⟨hwfr, ?_⟩
        intro c2 hc2
        simp only [Option.toList_some, List.mem_singleton] at hc2
        rw [hc2]
        exact ⟨hwfmod, rfl⟩
      · rw [if_neg hstop]
        refine ⟨?_, by simp⟩
        intro c2 hc2
        rcases List.mem_cons.1 hc2 with h | h
        · rw [h]
          exact hwfmod
        · exact hwfr c2 h
    · rw [if_neg hc]
      obtain ⟨ih1, ih2⟩ := ih hwfr
      refine ⟨?_, ih2⟩
      intro c2 hc2
      rcases List.mem_cons.1 hc2 with h | h
      · rw [h]
        exact hwfc
      · exact ih1 c2 h

theorem removeCar_countP (i j : ℕ) :
    ∀ l : List Car,
      (removeCar i l).1.countP (pid j) + ((removeCar i l).2.toList).countP (pid j) =
        l.countP (pid j) := by
  intro l
  induction l with
  | nil => simp [removeCar]
  | cons c rest ih =>
    rw [removeCar]
    by_cases hc : c.id = i
    · rw [if_pos hc]
      simp only [Option.toList_some, List.countP_cons, List.countP_nil]
      omega
    · rw [if_neg hc]
      simp only [List.countP_cons]
      omega

theorem removeCar_some_id (i : ℕ) :
    ∀ (l : List Car) (c : Car), (removeCar i l).2 = some c → c.id = i := by
  intro l
  induction l with
  | nil =>
    intro c h
    simp [removeCar] at h
  | cons a rest ih =>
    intro c h
    rw [removeCar] at h
    by_cases ha : a.id = i
    · rw [if_pos ha] at h
      simp only at h
      rw [← Option.some_inj.1 h]
      exact ha
    · rw [if_neg ha] at h
      exact ih c h

theorem removeCar_none (i : ℕ) :
    ∀ l : List Car, (removeCar i l).2 = none → l.countP (pid i) = 0 := by
  intro l
  induction l with
  | nil =>
    intro _
    simp
  | cons a rest ih =>
    intro h
    rw [removeCar] at h
    by_cases ha : a.id = i
    · rw [if_pos ha] at h
      simp at h
    · rw [if_neg ha] at h
      rw [List.countP_cons]
      have : pid i a = false := by
        simp [pid]
        exact ha
      rw [this]
      simp [ih h]

theorem removeCar_wf (i : ℕ) :
    ∀ l : List Car, (∀ c ∈ l, WfCar c) → ∀ c ∈ (removeCar i l).1, WfCar c := by
  intro l
  induction l with
  | nil =>
    intro _ c hc
    simp [removeCar] at hc
  | cons a rest ih =>
    intro hwf c hc
    have hwfa : WfCar a := hwf a (List.mem_cons_self a rest)
    have hwfr : ∀ c2 ∈ rest, WfCar c2 := fun c2 h2 => hwf c2 (List.mem_cons_of_mem a h2)
    rw [removeCar] at hc
    by_cases ha : a.id = i
    · rw [if_pos ha] at hc
      exact hwfr c hc
    · rw [if_neg ha] at hc
      rcases List.mem_cons.1 hc with h | h
      · rw [h]
        exact hwfa
      · exact ih hwfr c h

theorem yellowMark_id (t : ℚ) (c : Car) : (yellowMark t c).id = c.id := by
  rw [yellowMark]
  split <;> rfl

theorem yellowMark_wf (t : ℚ) (c : Car) (h : WfCar c) : WfCar (yellowMark t c) := by
  rw [yellowMark]
  split
  · exact h
  · exact h

theorem yellowMark_countP (t : ℚ) (j : ℕ) (l : List Car) :
    (l.map (yellowMark t)).countP (pid j) = l.countP (pid j) := by
  rw [List.countP_map]
  apply List.countP_congr
  intro c _
  simp only [Function.comp_apply]
  rw [show pid j (yellowMark t c) = pid j c by simp [pid, yellowMark_id]]

theorem onGreen_samples_countP (t : ℚ) (j : ℕ) (l : List Car) :
    (l.reverse.map (fun c => (c.id, greenDelay c t))).countP (sid j) =
      l.countP (pid j) := by
  rw [List.countP_map]
  have h1 : l.reverse.countP ((sid j) ∘ (fun c => (c.id, greenDelay c t))) =
      l.countP ((sid j) ∘ (fun c => (c.id, greenDelay c t))) :=
    (List.reverse_perm l).countP_eq _
  rw [h1]
  apply List.countP_congr
  intro c _
  exact Iff.rfl

/-- Contribution of one operation to the spawn count of the tracked id. -/
def spawnInc (op : COp) (j : ℕ) : ℕ :=
  match op with
  | .spawn c => if c.id = j then 1 else 0
  | _ => 0

/-- One car-manager step conserves `dcount + scount + ncount`, except that a
spawn of the tracked id adds one. -/
theorem stepCM_conserves (st : CMState) (op : COp) (j : ℕ) :
    dcount (stepCM st op) j + scount (stepCM st op) j + ncount (stepCM st op) j =
      dcount st j + scount st j + ncount st j + spawnInc op j := by
  cases op with
  | spawn c =>
    simp only [stepCM, dcount, scount, ncount, List.countP_append, spawnInc]
    have : List.countP (pid j) [c] = if c.id = j then 1 else 0 := by
      simp only [List.countP_cons, List.countP_nil, pid]
      by_cases h : c.id = j
      · simp [h]
      · simp [h]
    rw [this]
    omega
  | onYellow t =>
    simp only [stepCM, dcount, scount, ncount, spawnInc]
    rw [yellowMark_countP]
    omega
  | onGreen t =>
    simp only [stepCM, dcount, scount, ncount, List.countP_append, List.countP_nil, spawnInc]
    rw [onGreen_samples_countP]
    omega
  | arrive i t ls =>
    simp only [stepCM, dcount, scount, ncount, List.countP_append, spawnInc]
    have h := arriveUpd_countP i t ls j st.driving
    omega
  | exit i t =>
    have h := removeCar_countP i j st.driving
    cases hrc : (removeCar i st.driving).2 with
    | none =>
      simp only [stepCM, hrc, spawnInc]
      omega
    | some c =>
      simp only [stepCM, hrc]
      rw [hrc] at h
      simp only [Option.toList_some, List.countP_cons, List.countP_nil] at h
      simp only [dcount, scount, ncount, List.countP_append, List.countP_cons,
        List.countP_nil]
      have hpid : (if sid j (c.id, (0 : ℚ)) = true then 1 else 0) =
          (if pid j c = true then 1 else 0) := rfl
      rw [hpid]
      simp only [spawnInc]
      omega

/-- Folding car-manager steps: the conserved quantity grows exactly by the
number of spawns of the tracked id. -/
theorem foldCM_conserves (ops : List COp) (st : CMState) (j : ℕ) :
    dcount (ops.foldl stepCM st) j + scount (ops.foldl stepCM st) j +
        ncount (ops.foldl stepCM st) j =
      dcount st j + scount st j + ncount st j + spawnsCount ops j := by
  induction ops generalizing st with
  | nil => simp [spawnsCount]
  | cons o rest ih =>
    rw [List.foldl_cons, ih (stepCM st o)]
    have h := stepCM_conserves st o j
    have hsp : spawnsCount (o :: rest) j = spawnInc o j + spawnsCount rest j := by
      simp only [spawnsCount, List.countP_cons, spawnInc]
      cases o with
      | spawn c =>
        simp only
        by_cases hc : c.id = j
        · simp [hc]
          omega
        · simp [hc]
      | onYellow t => simp
      | onGreen t => simp
      | arrive i t ls => simp
      | exit i t => simp
    omega

theorem spawnsCount_cons (o : COp) (rest : List COp) (j : ℕ) :
    spawnsCount (o :: rest) j = spawnInc o j + spawnsCount rest j := by
  simp only [spawnsCount, List.countP_cons, spawnInc]
  cases o with
  | spawn c =>
    simp only
    by_cases hc : c.id = j
    · simp [hc]
      omega
    · simp [hc]
  | onYellow t => simp
  | onGreen t => simp
  | arrive i t ls => simp
  | exit i t => simp

theorem spawnsCount_append (la lb : List COp) (j : ℕ) :
    spawnsCount (la ++ lb) j = spawnsCount la j + spawnsCount lb j := by
  simp [spawnsCount, List.countP_append]

theorem spawnsCount_take_le (ops : List COp) (n j : ℕ) :
    spawnsCount (ops.take n) j ≤ spawnsCount ops j := by
  conv_rhs => rw [← List.take_append_drop n ops]
  rw [spawnsCount_append]
  omega

/-- A step that is not a spawn of the tracked id never increases the number
of driving cars with that id. -/
theorem stepCM_dcount_le (st : CMState) (op : COp) (j : ℕ) (h : spawnInc op j = 0) :
    dcount (stepCM st op) j ≤ dcount st j := by
  cases op with
  | spawn c =>
    have hc : ¬(c.id = j) := by
      by_contra hcc
      simp [spawnInc, hcc] at h
    simp only [stepCM, dcount, List.countP_append, List.countP_cons, List.countP_nil]
    have : pid j c = false := by
      simp [pid]
      exact hc
    rw [this]
    simp
  | onYellow t =>
    simp only [stepCM, dcount]
    rw [yellowMark_countP]
  | onGreen t => exact le_refl _
  | arrive i t ls =>
    simp only [stepCM, dcount]
    have hcp := arriveUpd_countP i t ls j st.driving
    omega
  | exit i t =>
    have hcp := removeCar_countP i j st.driving
    cases hrc : (removeCar i st.driving).2 with
    | none => simp [stepCM, hrc, dcount]
    | some c =>
      simp only [stepCM, hrc, dcount]
      rw [hrc] at hcp
      simp only [Option.toList_some, List.countP_cons, List.countP_nil] at hcp
      omega

/-- Folding steps that never spawn the tracked id keeps its driving count at
zero. -/
theorem foldCM_dcount_zero (ops : List COp) (st : CMState) (j : ℕ)
    (h0 : dcount st j = 0) (hsp : spawnsCount ops j = 0) :
    dcount (ops.foldl stepCM st) j = 0 := by
  induction ops generalizing st with
  | nil => simpa using h0
  | cons o rest ih =>
    rw [spawnsCount_cons] at hsp
    rw [List.foldl_cons]
    apply ih (stepCM st o)
    · have hstep := stepCM_dcount_le st o j (by omega)
      omega
    · omega

/-- Processing an exit event for the tracked id leaves no driving car with
that id (given there was at most one). -/
theorem stepCM_exit_dcount (st : CMState) (j : ℕ) (t : ℚ) (hle : dcount st j ≤ 1) :
    dcount (stepCM st (.exit j t)) j = 0 := by
  have hcp := removeCar_countP j j st.driving
  cases hrc : (removeCar j st.driving).2 with
  | none =>
    simp only [stepCM, hrc, dcount]
    exact removeCar_none j st.driving hrc
  | some c =>
    simp only [stepCM, hrc, dcount]
    rw [hrc] at hcp
    have hcid : c.id = j := removeCar_some_id j st.driving c hrc
    have hone : List.countP (pid j) (removeCar j st.driving).2.toList = 1 := by
      rw [hrc]
      simp [pid, hcid]
    rw [hrc] at hone
    simp only [dcount] at hle
    omega

/-- The elapsed-time terms of the green-release delay collapse: for a car
satisfying the `Car.__init__` field discipline,
`(total - 2*brakedist)/speed + braketime = total/speed`, so the recorded
delay is exactly the release time minus the stop-decision time. -/
theorem greenDelay_eq (c : Car) (t : ℚ) (hwf : WfCar c) :
    greenDelay c t = t - c.stoptime := by
  obtain ⟨hs, hbd, hbt⟩ := hwf
  have hsne : c.speed ≠ 0 := ne_of_gt hs
  rw [greenDelay, hbd, hbt]
  rw [CARACC]
  field_simp
  ring

/-- Any delay sample produced by a run from a state whose cars are
well-formed and whose stopped cars were stamped no later than every remaining
operation is non-negative: exits record 0, and a green release at time `t`
records `t - stoptime ≥ 0`. -/
theorem samples_nonneg_aux (ops : List COp) (st : CMState)
    (hsorted : (ops.map opTime).Sorted (· ≤ ·))
    (hwfD : ∀ c ∈ st.driving, WfCar c)
    (hwfS : ∀ c ∈ st.stopped, WfCar c ∧ ∀ o ∈ ops, c.stoptime ≤ opTime o)
    (hspawn : ∀ c ∈ carSpawns ops, WfCar c)
    (hsamp : ∀ pr ∈ st.samples, 0 ≤ pr.2) :
    ∀ pr ∈ (ops.foldl stepCM st).samples, 0 ≤ pr.2 := by
  induction ops generalizing st with
  | nil => simpa using hsamp
  | cons o rest ih =>
    rw [List.map_cons, List.sorted_cons] at hsorted
    obtain ⟨hhead, hsorted2⟩ := hsorted
    have hheadOp : ∀ o2 ∈ rest, opTime o ≤ opTime o2 := by
      intro o2 ho2
      exact hhead (opTime o2) (List.mem_map_of_mem opTime ho2)
    rw [List.foldl_cons]
    cases o with
    | spawn c =>
      apply ih (stepCM st (.spawn c)) hsorted2
      · intro c2 hc2
        rcases List.mem_append.1 hc2 with h | h
        · exact hwfD c2 h
        · have hc2c : c2 = c := by simpa using h
          rw [hc2c]
          apply hspawn
          simp [carSpawns, List.filterMap_cons]
      · intro c2 hc2
        obtain ⟨hw, hb⟩ := hwfS c2 hc2
        exact ⟨hw, fun o2 ho2 => hb o2 (List.mem_cons_of_mem _ ho2)⟩
      · intro c2 hc2
        apply hspawn
        have : carSpawns (COp.spawn c :: rest) = c :: carSpawns rest := by
          simp [carSpawns, List.filterMap_cons]
        rw [this]
        exact List.mem_cons_of_mem c hc2
      · exact hsamp
    | onYellow t =>
      apply ih (stepCM st (.onYellow t)) hsorted2
      · intro c2 hc2
        obtain ⟨c0, hc0, hc0m⟩ := List.mem_map.1 hc2
        rw [← hc0m]
        exact yellowMark_wf t c0 (hwfD c0 hc0)
      · intro c2 hc2
        obtain ⟨hw, hb⟩ := hwfS c2 hc2
        exact ⟨hw, fun o2 ho2 => hb o2 (List.mem_cons_of_mem _ ho2)⟩
      · intro c2 hc2
        apply hspawn
        have : carSpawns (COp.onYellow t :: rest) = carSpawns rest := by
          simp [carSpawns, List.filterMap_cons]
        rw [this]
        exact hc2
      · exact hsamp
    | onGreen t =>
      apply ih (stepCM st (.onGreen t)) hsorted2
      · exact hwfD
      · intro c2 hc2
        exact absurd hc2 (List.not_mem_nil c2)
      · intro c2 hc2
        apply hspawn
        have : carSpawns (COp.onGreen t :: rest) = carSpawns rest := by
          simp [carSpawns, List.filterMap_cons]
        rw [this]
        exact hc2
      · intro pr hpr
        rcases List.mem_append.1 hpr with h | h
        · exact hsamp pr h
        · obtain ⟨c0, hc0, hpr0⟩ := List.mem_map.1 h
          rw [List.mem_reverse] at hc0
          obtain ⟨hw, hb⟩ := hwfS c0 hc0
          have hstamp : c0.stoptime ≤ t :=
            hb (COp.onGreen t) (List.mem_cons_self _ _)
          rw [← hpr0]
          show 0 ≤ greenDelay c0 t
          rw [greenDelay_eq c0 t hw]
          linarith
    | arrive i t ls =>
      obtain ⟨hupd1, hupd2⟩ := arriveUpd_wf i t ls st.driving hwfD
      apply ih (stepCM st (.arrive i t ls)) hsorted2
      · exact hupd1
      · intro c2 hc2
        rcases List.mem_append.1 hc2 with h | h
        · obtain ⟨hw, hb⟩ := hwfS c2 h
          exact ⟨hw, fun o2 ho2 => hb o2 (List.mem_cons_of_mem _ ho2)⟩
        · obtain ⟨hw, hstamp⟩ := hupd2 c2 h
          refine ⟨hw, ?_⟩
          intro o2 ho2
          rw [hstamp]
          exact hheadOp o2 ho2
      · intro c2 hc2
        apply hspawn
        have : carSpawns (COp.arrive i t ls :: rest) = carSpawns rest := by
          simp [carSpawns, List.filterMap_cons]
        rw [this]
        exact hc2
      · exact hsamp
    | exit i t =>
      have hspawn2 : ∀ c2 ∈ carSpawns rest, WfCar c2 := by
        intro c2 hc2
        apply hspawn
        have : carSpawns (COp.exit i t :: rest) = carSpawns rest := by
          simp [carSpawns, List.filterMap_cons]
        rw [this]
        exact hc2
      have hwfS2 : ∀ c2 ∈ st.stopped, WfCar c2 ∧ ∀ o2 ∈ rest, c2.stoptime ≤ opTime o2 := by
        intro c2 hc2
        obtain ⟨hw, hb⟩ := hwfS c2 hc2
        exact ⟨hw, fun o2 ho2 => hb o2 (List.mem_cons_of_mem _ ho2)⟩
      cases hrc : (removeCar i st.driving).2 with
      | none =>
        have hst : stepCM st (.exit i t) = st := by
          simp [stepCM, hrc]
        rw [hst]
        exact ih st hsorted2 hwfD hwfS2 hspawn2 hsamp
      | some c =>
        have hst : stepCM st (.exit i t) =
            { st with driving := (removeCar i st.driving).1,
                      samples := st.samples ++ [(c.id, 0)] } := by
          simp [stepCM, hrc]
        rw [hst]
        apply ih _ hsorted2
        · exact removeCar_wf i st.driving hwfD
        · exact hwfS2
        · exact hspawn2
        · intro pr hpr
          rcases List.mem_append.1 hpr with h | h
          · exact hsamp pr h
          · have : pr = (c.id, (0 : ℚ)) := by simpa using h
            rw [this]

/-- If the tracked id is never on the stopped list at any point of the run,
every delay sample recorded for it is 0 (only the exit handler, which records
0, can sample it). -/
theorem samples_zero_aux (j : ℕ) (ops : List COp) (st : CMState)
    (hs : ∀ n, scount ((ops.take n).foldl stepCM st) j = 0)
    (hsamp : ∀ pr ∈ st.samples, pr.1 = j → pr.2 = 0) :
    ∀ pr ∈ (ops.foldl stepCM st).samples, pr.1 = j → pr.2 = 0 := by
  induction ops generalizing st with
  | nil => simpa using hsamp
  | cons o rest ih =>
    have hs0 : scount st j = 0 := by simpa using hs 0
    have hs2 : ∀ n, scount ((rest.take n).foldl stepCM (stepCM st o)) j = 0 := by
      intro n
      have := hs (n + 1)
      rwa [List.take_succ_cons, List.foldl_cons] at this
    rw [List.foldl_cons]
    apply ih (stepCM st o) hs2
    intro pr hpr hprj
    cases o with
    | spawn c => exact hsamp pr hpr hprj
    | onYellow t => exact hsamp pr hpr hprj
    | onGreen t =>
      rcases List.mem_append.1 hpr with h | h
      · exact hsamp pr h hprj
      · exfalso
        obtain ⟨c0, hc0, hpr0⟩ := List.mem_map.1 h
        rw [List.mem_reverse] at hc0
        have hnid : ∀ a ∈ st.stopped, ¬(pid j a = true) := by
          apply List.countP_eq_zero.1
          simpa [scount] using hs0
        apply hnid c0 hc0
        have : c0.id = j := by
          rw [← hpr0] at hprj
          exact hprj
        simp [pid, this]
    | arrive i t ls => exact hsamp pr hpr hprj
    | exit i t =>
      cases hrc : (removeCar i st.driving).2 with
      | none =>
        have hst : stepCM st (.exit i t) = st := by
          simp [stepCM, hrc]
        rw [hst] at hpr
        exact hsamp pr hpr hprj
      | some c =>
        have hst : stepCM st (.exit i t) =
            { st with driving := (removeCar i st.driving).1,
                      samples := st.samples ++ [(c.id, 0)] } := by
          simp [stepCM, hrc]
        rw [hst] at hpr
        rcases List.mem_append.1 hpr with h | h
        · exact hsamp pr h hprj
        · have : pr = (c.id, (0 : ℚ)) := by simpa using h
          rw [this]

/- ====================  Concrete instances used by the claim theorems  ==================== -/

/-- Twenty-one pedestrians waiting at the button when a red phase begins
(one more than `MAXPEDS`), in arrival order 1..21. -/
def c1peds : List Ped := (List.range 21).map (fun k => ⟨k + 1, 0, 1, 376, 46⟩)

/-- Pedestrian-manager state at red entry with the 21 waiting pedestrians. -/
def c1st : PedState := ⟨[], c1peds, 0, []⟩

/-- A car spawned at time 0 with free-flow speed 40 ft/s (braking fields as
computed by `Car.__init__`). -/
def c4car : Car := ⟨1, 0, 40, 80, 4, false, -1⟩

/- ====================  C1  ==================== -/

/-- C1: the claim states that every pedestrian beyond the `MAXPEDS` capacity
of a red-phase deploy remains in the waiting queue for the next red phase.
The code violates it: with 21 waiting pedestrians, `deploy` pops the 21st
pedestrian from the queue via `getped` before `cross` raises the
capacity-exceeded signal, so after the deploy exactly `MAXPEDS = 20`
pedestrians have crossed, pedestrian 21 has no delay sample, and the waiting
queue is empty instead of holding pedestrian 21. -/
theorem C1_deploy_drops_overflow_ped :
    (deployStep c1st 0).count = 20 ∧
    (deployStep c1st 0).samples.length = MAXPEDS ∧
    (∀ pr ∈ (deployStep c1st 0).samples, pr.1 ≠ 21) ∧
    (deployStep c1st 0).waiting = [] := by
  decide

/- ====================  C2  ==================== -/

/-- C2: the claim states that the YELLOW-expiry transition sets the light's
walk-expiry deadline to its owning simulation's current time plus
`REDTIMEOUT`.  The code violates it for a light whose owner is not the
module-level `sim`: with the owning clock at 100 and the module-level clock at
0, pressing at GREEN yields YELLOW with exactly one timer at `100 +
YELLOWTIMEOUT`, and the subsequent expiry yields RED with exactly one deploy
and one timer at `100 + REDTIMEOUT` - but `walkexpire` becomes `0 + REDTIMEOUT
= 18` (read from the unscoped global `sim.time` on sim.py line 104), not
`100 + REDTIMEOUT = 118` as the claim requires. -/
theorem C2_walkexpire_uses_global_clock :
    (lightPress ⟨.GREEN, 0⟩ 100).1.state = LightState.YELLOW ∧
    (lightPress ⟨.GREEN, 0⟩ 100).2.timers = [100 + YELLOWTIMEOUT] ∧
    (lightPress ⟨.GREEN, 0⟩ 100).2.deploys = 0 ∧
    (lightTimer (lightPress ⟨.GREEN, 0⟩ 100).1 100 0).1.state = LightState.RED ∧
    (lightTimer (lightPress ⟨.GREEN, 0⟩ 100).1 100 0).2.deploys = 1 ∧
    (lightTimer (lightPress ⟨.GREEN, 0⟩ 100).1 100 0).2.timers = [100 + REDTIMEOUT] ∧
    (lightTimer (lightPress ⟨.GREEN, 0⟩ 100).1 100 0).1.walkexpire = 18 ∧
    (lightTimer (lightPress ⟨.GREEN, 0⟩ 100).1 100 0).1.walkexpire ≠ 100 + REDTIMEOUT := by
  refine ⟨rfl, rfl, rfl, rfl, rfl, rfl, ?_, ?_⟩
  · show (0 : ℚ) + REDTIMEOUT = 18
    norm_num [REDTIMEOUT]
  · show (0 : ℚ) + REDTIMEOUT ≠ 100 + REDTIMEOUT
    norm_num [REDTIMEOUT]

/- ====================  C7  ==================== -/

/-- C7: the claim states that a malformed trace line is surfaced as the
stream's exhaustion condition, the consuming draw falls back to 0.0 and no
exception escapes.  The code violates it: under Python >= 3.7 (PEP 479) the
`raise StopIteration` inside the `iterate` generator body reaches `next` as a
`RuntimeError`, which the `except StopIteration` handler does not catch, so
the exception escapes `Token.next` and aborts the run.  The 0.0 fallback is
reached only on genuine end-of-file. -/
theorem C7_malformed_line_escapes :
    tokenNext [Option.none] = Except.error PyExc.runtimeError ∧
    tokenNext [] = Except.ok (0, []) ∧
    tokenNext [some (1/2), Option.none] = Except.ok (1/2, [Option.none]) :=
  ⟨rfl, rfl, rfl⟩

/- ====================  C4  ==================== -/

/-- C4 counterexample: the claim states that on a yellow change the manager
computes the car's projected position at end-of-yellow, with distance
traveled equal to speed times the elapsed time since spawn.  For a car of
speed 40 spawned at time 0, with yellow at time 0, the code's computed bound
is `(0 + YELLOWTIMEOUT - 0) / 40 = 1/5` - elapsed time divided by speed -
while the projected position is `40 * 8 = 320`. -/
theorem C4_counterexample :
    posA c4car 0 ≠ specPos c4car (0 + YELLOWTIMEOUT) ∧
    posA c4car 0 = 1 / 5 ∧
    specPos c4car (0 + YELLOWTIMEOUT) = 320 := by
  refine ⟨?_, ?_, ?_⟩ <;>
    norm_num [posA, specPos, c4car, YELLOWTIMEOUT]

/-- C4 amended: on a yellow change the manager computes, for each driving car,
the two bounds `posa = (now + YELLOWTIMEOUT - atime) / speed` and `posb =
(now + YELLOWTIMEOUT + REDTIMEOUT - atime) / speed` - elapsed time divided by
speed, not the projected position speed times elapsed time - and marks
should-stop exactly when `posa < after` or `posb > before`; for every car
with positive speed this test always succeeds, so every driving car is marked,
which coincides extensionally with the outcome of the spec's position-based
conservative check (also always true under its or-combination of bounds). -/
theorem C4_amended (c : Car) (t : ℚ) (h : 0 < c.speed) :
    stopCond c t = (decide (posA c t < afterDist) || decide (posB c t > beforeDist)) ∧
    stopCond c t = true ∧
    specStopCond c t = true ∧
    (yellowMark t c).shouldstop = true := by
  have hs : c.speed ≠ 0 := ne_of_gt h
  have hBA : posB c t = posA c t + REDTIMEOUT / c.speed := by
    unfold posA posB
    field_simp
    ring
  have hred : 0 < REDTIMEOUT / c.speed := by
    apply div_pos _ h
    norm_num [REDTIMEOUT]
  have hafter : afterDist = 1314 := by norm_num [afterDist, totalDrive, BLOCKWIDTH, STREETWIDTH, CROSSWIDTH, LENGTH]
  have hbefore : beforeDist = 1281 := by norm_num [beforeDist, totalDrive, BLOCKWIDTH, STREETWIDTH, CROSSWIDTH]
  have hstop : stopCond c t = true := by
    rcases lt_or_ge (posA c t) afterDist with hlt | hge
    · simp [stopCond, hlt]
    · have : posB c t > beforeDist := by
        rw [hBA, hbefore]
        rw [hafter] at hge
        linarith
      simp [stopCond, this]
  have hspec : specStopCond c t = true := by
    rcases lt_or_ge (specPos c (t + YELLOWTIMEOUT)) afterDist with hlt | hge
    · simp [specStopCond, hlt]
    · have hdiff : specPos c (t + YELLOWTIMEOUT + REDTIMEOUT) =
          specPos c (t + YELLOWTIMEOUT) + c.speed * REDTIMEOUT := by
        unfold specPos
        ring
      have hpos : 0 < c.speed * REDTIMEOUT := by
        apply mul_pos h
        norm_num [REDTIMEOUT]
      have : specPos c (t + YELLOWTIMEOUT + REDTIMEOUT) > beforeDist := by
        rw [hdiff, hbefore]
        rw [hafter] at hge
        linarith
      simp [specStopCond, this]
  refine ⟨rfl, hstop, hspec, ?_⟩
  simp [yellowMark, hstop]

/-- C4 amended witness: the amended marking behaviour evaluated on the
concrete car of the counterexample. -/
theorem C4_amended_witness :
    stopCond c4car 0 = true ∧ specStopCond c4car 0 = true ∧
    (yellowMark 0 c4car).shouldstop = true := by
  have h := C4_amended c4car 0 (by norm_num [c4car])
  exact ⟨h.2.1, h.2.2.1, h.2.2.2⟩

/- ====================  C8  ==================== -/

/-- C8 counterexample: the claim states that `geometric` fails immediately and
loudly on every invocation with valid parameters; in fact `geometric(0.5)`
with the draw `u = 0.5` raises nothing and returns
`int(log(0.5) / log(0.5)) = 1`. -/
theorem C8_counterexample : geometric (1 / 2) (1 / 2) = Except.ok 1 := by
  have hlog : Real.log (1 / 2) < 0 := Real.log_neg (by norm_num) (by norm_num)
  have h1 : ¬((1 : ℝ) / 2 ≤ 0) := by norm_num
  rw [geometric, if_neg h1, if_neg (ne_of_lt hlog)]
  have harg : (1 : ℝ) - 1 / 2 = 1 / 2 := by norm_num
  rw [harg, div_self (ne_of_lt hlog)]
  have : pyIntR 1 = 1 := by
    rw [pyIntR, if_pos (by norm_num)]
    exact Int.floor_one
  rw [this]

/-- C8 amended: the `binomial`, `pascal` and `normal` variate functions fail
immediately and loudly on every invocation, raising `NotImplementedError`
and returning no value; `geometric`, however, is implemented: for valid
parameters `0 < l < 1` it raises nothing and returns
`int(log(1 - u) / log(l))`. -/
theorem C8_amended :
    (∀ n p, pascal n p = Except.error PyExc.notImplementedError) ∧
    (∀ n p, binomial n p = Except.error PyExc.notImplementedError) ∧
    (∀ m s, normal m s = Except.error PyExc.notImplementedError) ∧
    (∀ l u : ℝ, 0 < l → l < 1 →
      geometric l u = Except.ok (pyIntR (Real.log (1 - u) / Real.log l))) := by
  refine ⟨fun _ _ => rfl, fun _ _ => rfl, fun _ _ => rfl, fun l u h1 h2 => ?_⟩
  have hlog : Real.log l < 0 := Real.log_neg h1 h2
  rw [geometric, if_neg (not_le.2 h1), if_neg (ne_of_lt hlog)]

/-- C8 amended witness: `geometric` invoked at the concrete valid parameter
`l = 1/2` with draw `u = 0` returns a value. -/
theorem C8_amended_witness :
    geometric (1 / 2) 0 = Except.ok (pyIntR (Real.log (1 - 0) / Real.log (1 / 2))) :=
  C8_amended.2.2.2 (1 / 2) 0 (by norm_num) (by norm_num)

/- ====================  C9  ==================== -/

/-- C9: the implemented variate mappings satisfy the spec's closed forms -
Bernoulli succeeds iff `u ≥ 1 - p`; `uniform a b u = a + (b - a) u`;
`equilikely a b u = a + ⌊(b - a + 1) u⌋` for an inclusive range `a ≤ b` and a
draw `u ∈ (0,1)` (Python's `int` truncation coincides with the floor on the
non-negative argument); `exponential mean u = -mean * ln (1 - u)`; and the
literal instances: `uniform 10 20` at `u = 1/2` is 15, `equilikely 1 6` at
`u = 0.999` is 6, `bernouli 0.25` is true at `u = 0.80` and false at
`u = 0.70`, and `exponential 10` at `u = 0.6321205588` is within `10⁻⁸`
of 10. -/
theorem C9_variate_formulas :
    (∀ p u : ℚ, bernouli p u = true ↔ 1 - p ≤ u) ∧
    (∀ a b u : ℚ, uniform a b u = a + (b - a) * u) ∧
    (∀ a b : ℤ, ∀ u : ℚ, a ≤ b → 0 < u → u < 1 →
      equilikely a b u = a + ⌊((b : ℚ) - (a : ℚ) + 1) * u⌋) ∧
    (∀ m u : ℝ, 0 < m → exponential m u = Except.ok (-m * Real.log (1 - u))) ∧
    uniform 10 20 (1 / 2) = 15 ∧
    equilikely 1 6 (999 / 1000) = 6 ∧
    bernouli (1 / 4) (8 / 10) = true ∧
    bernouli (1 / 4) (7 / 10) = false ∧
    (∃ d : ℝ, exponential 10 (6321205588 / 10 ^ 10) = Except.ok d ∧ |d - 10| ≤ 1 / 10 ^ 8) := by
  refine ⟨?_, fun _ _ _ => rfl, ?_, ?_, by norm_num [uniform], ?_,
    by simp [bernouli]; norm_num, by simp [bernouli]; norm_num, ?_⟩
  · intro p u
    simp [bernouli, ge_iff_le]
  · intro a b u hab hu0 _
    have hnn : (0 : ℚ) ≤ ((b : ℚ) - (a : ℚ) + 1) * u := by
      have h1 : (1 : ℚ) ≤ (b : ℚ) - (a : ℚ) + 1 := by
        have : (a : ℚ) ≤ (b : ℚ) := by exact_mod_cast hab
        linarith
      have h2 : (0 : ℚ) ≤ (b : ℚ) - (a : ℚ) + 1 := by linarith
      exact mul_nonneg h2 (le_of_lt hu0)
    rw [equilikely, pyInt, if_pos hnn]
  · intro m u hm
    rw [exponential, if_neg (not_le.2 hm)]
  · rw [equilikely, pyInt, if_pos (by norm_num)]
    norm_num
  · refine ⟨-10 * Real.log (1 - 6321205588 / 10 ^ 10), ?_, ?_⟩
    · rw [exponential, if_neg (by norm_num)]
    · have hy : ((1 : ℝ) - 6321205588 / 10 ^ 10) = 3678794412 / 10 ^ 10 := by norm_num
      rw [hy]
      have hypos : (0 : ℝ) < 3678794412 / 10 ^ 10 := by norm_num
      have he1 : (27182818283 : ℝ) / 10 ^ 10 < Real.exp 1 := by
        have h := Real.exp_one_gt_d9
        norm_num at h ⊢
        exact h
      have he2 : Real.exp 1 < (27182818286 : ℝ) / 10 ^ 10 := by
        have h := Real.exp_one_lt_d9
        norm_num at h ⊢
        exact h
      have hz1 : (1 : ℝ) < 3678794412 / 10 ^ 10 * Real.exp 1 := by
        have hm := mul_lt_mul_of_pos_left he1 hypos
        have hc : (1 : ℝ) < 3678794412 / 10 ^ 10 * ((27182818283 : ℝ) / 10 ^ 10) := by
          norm_num
        linarith
      have hz2 : 3678794412 / 10 ^ 10 * Real.exp 1 < 1 + 1 / 10 ^ 9 := by
        have hm := mul_lt_mul_of_pos_left he2 hypos
        have hc : 3678794412 / 10 ^ 10 * ((27182818286 : ℝ) / 10 ^ 10) < 1 + 1 / 10 ^ 9 := by
          norm_num
        linarith
      have hlogz : Real.log (3678794412 / 10 ^ 10 * Real.exp 1) =
          Real.log (3678794412 / 10 ^ 10) + 1 := by
        rw [Real.log_mul (ne_of_gt hypos) (Real.exp_ne_zero 1), Real.log_exp]
      have hlz_pos : 0 < Real.log (3678794412 / 10 ^ 10 * Real.exp 1) := Real.log_pos hz1
      have hlz_le : Real.log (3678794412 / 10 ^ 10 * Real.exp 1) ≤
          3678794412 / 10 ^ 10 * Real.exp 1 - 1 :=
        Real.log_le_sub_one_of_pos (by positivity)
      have hb1 : Real.log ((3678794412 : ℝ) / 10 ^ 10) + 1 ≤ 1 / 10 ^ 9 := by
        rw [← hlogz]
        linarith
      have hb2 : 0 < Real.log ((3678794412 : ℝ) / 10 ^ 10) + 1 := by
        rw [← hlogz]
        exact hlz_pos
      rw [abs_le]
      constructor <;> nlinarith [hb1, hb2]

/-- C9 witness: the general formulas applied at concrete arguments. -/
theorem C9_variate_formulas_witness :
    equilikely 1 6 (999 / 1000) = 1 + ⌊((6 : ℚ) - (1 : ℚ) + 1) * (999 / 1000)⌋ ∧
    exponential 10 (1 / 2) = Except.ok (-10 * Real.log (1 - 1 / 2)) :=
  ⟨C9_variate_formulas.2.2.1 1 6 (999 / 1000) (by norm_num) (by norm_num) (by norm_num),
   C9_variate_formulas.2.2.2.1 10 (1 / 2) (by norm_num)⟩

/- ====================  C3  ==================== -/

theorem runCM_def (ops : List COp) : runCM ops = ops.foldl stepCM ⟨[], [], []⟩ := rfl

/-- C3: under the scheduler discipline - the car is spawned exactly once, a
`CarExit` event for it is dispatched after the spawn, the run ends with the
stopped list drained (the red timer chain always fires a green release), the
operation times are non-decreasing (clock monotonicity) and every spawned car
carries the `Car.__init__` fields - every spawned car receives exactly one
delay sample: the value is 0 if the car was never moved to stopped and is
non-negative in every case (a green release at time `t` records
`t - stoptime ≥ 0`); moreover at every prefix of the run the car, once
spawned and not yet sampled, is a member of exactly one of the driving and
stopped lists, and after its sample is recorded it is a member of neither. -/
theorem C3_car_lifecycle (ops : List COp) (c : Car) (l1 l2 : List COp) (te : ℚ)
    (hsplit : ops = l1 ++ COp.spawn c :: l2)
    (hexit : COp.exit c.id te ∈ l2)
    (huniq : spawnsCount ops c.id = 1)
    (hstopped : (runCM ops).stopped = [])
    (hsorted : (ops.map opTime).Sorted (· ≤ ·))
    (hwf : ∀ c2 ∈ carSpawns ops, WfCar c2) :
    ncount (runCM ops) c.id = 1 ∧
    (∀ pr ∈ (runCM ops).samples, pr.1 = c.id → 0 ≤ pr.2) ∧
    ((∀ n, scount (runCM (ops.take n)) c.id = 0) →
      ∀ pr ∈ (runCM ops).samples, pr.1 = c.id → pr.2 = 0) ∧
    (∀ n,
      (ncount (runCM (ops.take n)) c.id = 0 → spawnsCount (ops.take n) c.id = 1 →
        dcount (runCM (ops.take n)) c.id + scount (runCM (ops.take n)) c.id = 1) ∧
      (1 ≤ ncount (runCM (ops.take n)) c.id →
        dcount (runCM (ops.take n)) c.id = 0 ∧ scount (runCM (ops.take n)) c.id = 0)) := by
  have hinitd : dcount ⟨[], [], []⟩ c.id = 0 := rfl
  have hinits : scount ⟨[], [], []⟩ c.id = 0 := rfl
  have hinitn : ncount ⟨[], [], []⟩ c.id = 0 := rfl
  obtain ⟨l21, l22, hl2⟩ := List.append_of_mem hexit
  have hops : ops = (l1 ++ COp.spawn c :: l21) ++ COp.exit c.id te :: l22 := by
    rw [hsplit, hl2]
    simp
  have hcnt : spawnsCount ops c.id =
      spawnsCount (l1 ++ COp.spawn c :: l21) c.id + spawnInc (COp.exit c.id te) c.id +
        spawnsCount l22 c.id := by
    rw [hops, spawnsCount_append, spawnsCount_cons]
    omega
  have hincE : spawnInc (COp.exit c.id te) c.id = 0 := rfl
  have hincS : spawnInc (COp.spawn c) c.id = 1 := by simp [spawnInc]
  have hpre1 : 1 ≤ spawnsCount (l1 ++ COp.spawn c :: l21) c.id := by
    rw [spawnsCount_append, spawnsCount_cons, hincS]
    omega
  have hpreEq : spawnsCount (l1 ++ COp.spawn c :: l21) c.id = 1 := by omega
  have hl22z : spawnsCount l22 c.id = 0 := by omega
  have hrun : runCM ops =
      l22.foldl stepCM
        (stepCM (runCM (l1 ++ COp.spawn c :: l21)) (COp.exit c.id te)) := by
    rw [runCM_def, hops, List.foldl_append, List.foldl_cons, ← runCM_def]
  have hdpre : dcount (runCM (l1 ++ COp.spawn c :: l21)) c.id ≤ 1 := by
    have hc := foldCM_conserves (l1 ++ COp.spawn c :: l21) ⟨[], [], []⟩ c.id
    rw [← runCM_def] at hc
    omega
  have hdafter : dcount (stepCM (runCM (l1 ++ COp.spawn c :: l21))
      (COp.exit c.id te)) c.id = 0 :=
    stepCM_exit_dcount _ c.id te hdpre
  have hdfinal : dcount (runCM ops) c.id = 0 := by
    rw [hrun]
    exact foldCM_dcount_zero l22 _ c.id hdafter hl22z
  have hsfinal : scount (runCM ops) c.id = 0 := by
    simp [scount, hstopped]
  have hnfinal : ncount (runCM ops) c.id = 1 := by
    have hc := foldCM_conserves ops ⟨[], [], []⟩ c.id
    rw [← runCM_def] at hc
    omega
  have hemptyD : ∀ c2 ∈ ((⟨[], [], []⟩ : CMState)).driving, WfCar c2 := by
    intro c2 h2
    exact absurd h2 (List.not_mem_nil c2)
  have hemptyS : ∀ c2 ∈ ((⟨[], [], []⟩ : CMState)).stopped,
      WfCar c2 ∧ ∀ o ∈ ops, c2.stoptime ≤ opTime o := by
    intro c2 h2
    exact absurd h2 (List.not_mem_nil c2)
  have hemptyP : ∀ pr ∈ ((⟨[], [], []⟩ : CMState)).samples, (0 : ℚ) ≤ pr.2 := by
    intro pr h2
    exact absurd h2 (List.not_mem_nil pr)
  refine ⟨hnfinal, ?_, ?_, ?_⟩
  · intro pr hpr _
    have haux := samples_nonneg_aux ops ⟨[], [], []⟩ hsorted hemptyD hemptyS hwf hemptyP
    rw [← runCM_def] at haux
    exact haux pr hpr
  · intro hnever
    have hs : ∀ n, scount ((ops.take n).foldl stepCM ⟨[], [], []⟩) c.id = 0 := by
      intro n
      have := hnever n
      rwa [runCM_def] at this
    have haux := samples_zero_aux c.id ops ⟨[], [], []⟩ hs
      (by intro pr h2 _; exact absurd h2 (List.not_mem_nil pr))
    rw [← runCM_def] at haux
    exact haux
  · intro n
    have hc := foldCM_conserves (ops.take n) ⟨[], [], []⟩ c.id
    rw [← runCM_def] at hc
    have hle := spawnsCount_take_le ops n c.id
    rw [huniq] at hle
    constructor
    · intro h0 h1
      omega
    · intro h1
      omega

/-- C3 witness: the lifecycle theorem applied to a concrete four-operation
run - spawn a should-stop car, stop it at its arrive event under a yellow
light, release it on green, then dispatch its (now no-op) exit event. -/
theorem C3_car_lifecycle_witness :
    ncount (runCM [COp.spawn ⟨1, 0, 40, 80, 4, true, -1⟩,
      COp.arrive 1 10 .YELLOW, COp.onGreen 20, COp.exit 1 30]) 1 = 1 ∧
    (∀ pr ∈ (runCM [COp.spawn ⟨1, 0, 40, 80, 4, true, -1⟩,
      COp.arrive 1 10 .YELLOW, COp.onGreen 20, COp.exit 1 30]).samples,
        pr.1 = 1 → 0 ≤ pr.2) := by
  have h := C3_car_lifecycle
    [COp.spawn ⟨1, 0, 40, 80, 4, true, -1⟩,
      COp.arrive 1 10 .YELLOW, COp.onGreen 20, COp.exit 1 30]
    ⟨1, 0, 40, 80, 4, true, -1⟩
    [] [COp.arrive 1 10 .YELLOW, COp.onGreen 20, COp.exit 1 30] 30
    rfl
    (List.mem_cons_of_mem _ (List.mem_cons_of_mem _ (List.mem_cons_self _ _)))
    rfl
    rfl
    (by
      simp only [List.map_cons, List.map_nil, opTime, List.sorted_cons,
        List.mem_cons, List.mem_singleton, List.not_mem_nil, List.sorted_nil]
      norm_num)
    (by
      intro c2 h2
      have : c2 = (⟨1, 0, 40, 80, 4, true, -1⟩ : Car) := by
        simpa [carSpawns, List.filterMap_cons] using h2
      rw [this]
      refine ⟨by norm_num, ?_, ?_⟩ <;> norm_num [CARACC])
  exact ⟨h.1, h.2.1⟩

/- ====================  C5  ==================== -/

/-- Shifting the centre of a sum of squared deviations over a list. -/
theorem sum_sq_shift (l : List ℚ) (μ ν : ℚ) :
    (l.map (fun y => (y - ν) ^ 2)).sum =
      (l.map (fun y => (y - μ) ^ 2)).sum + 2 * (μ - ν) * (l.sum - l.length * μ) +
        l.length * (μ - ν) ^ 2 := by
  induction l with
  | nil => simp
  | cons x xs ih =>
    simp only [List.map_cons, List.sum_cons, List.length_cons]
    rw [ih]
    push_cast
    ring

/-- Closed form of one `Welford.insert` step (the streaming recurrence with
the pre-update mean on both right-hand sides). -/
theorem Welford.insert_eq (w : Welford) (x : ℚ) :
    Welford.insert w x =
      ⟨w.avg + (x - w.avg) / ((w.i : ℚ) + 1),
       w.var + (w.i : ℚ) * (x - w.avg) ^ 2 / ((w.i : ℚ) + 1),
       w.i + 1⟩ := by
  simp only [Welford.insert]
  congr 1
  · push_cast
    ring
  · push_cast
    ring

/-- Streaming-state invariant of the Welford accumulator: after inserting the
samples of `xs`, the counter is the sample count, the mean satisfies
`avg * n = Σ xs`, and the progressive `var` field is the sum of squared
deviations from the current mean. -/
theorem welfordRun_state (xs : List ℚ) :
    (welfordRun xs).i = xs.length ∧
    (welfordRun xs).avg * xs.length = xs.sum ∧
    (welfordRun xs).var = (xs.map (fun y => (y - (welfordRun xs).avg) ^ 2)).sum := by
  induction xs using List.reverseRecOn with
  | nil => simp [welfordRun, welfordInit]
  | append_singleton xs x ih =>
    obtain ⟨hi, havg, hvar⟩ := ih
    have hne : ((xs.length : ℚ) + 1) ≠ 0 := by positivity
    have hinsert : welfordRun (xs ++ [x]) =
        ⟨(welfordRun xs).avg + (x - (welfordRun xs).avg) / ((xs.length : ℚ) + 1),
         (welfordRun xs).var +
           (xs.length : ℚ) * (x - (welfordRun xs).avg) ^ 2 / ((xs.length : ℚ) + 1),
         xs.length + 1⟩ := by
      have hrun : welfordRun (xs ++ [x]) = Welford.insert (welfordRun xs) x := by
        simp [welfordRun, List.foldl_append]
      rw [hrun, Welford.insert_eq, hi]
    rw [hinsert]
    refine ⟨by simp, ?_, ?_⟩
    · simp only [List.length_append, List.sum_append, List.length_singleton,
        List.sum_singleton]
      rw [← havg]
      push_cast
      field_simp
      ring
    · simp only [List.map_append, List.sum_append, List.map_singleton,
        List.sum_singleton, List.length_append, List.length_singleton]
      rw [sum_sq_shift xs (welfordRun xs).avg
        ((welfordRun xs).avg + (x - (welfordRun xs).avg) / ((xs.length : ℚ) + 1)), ← hvar]
      have hzero : xs.sum - (xs.length : ℚ) * (welfordRun xs).avg = 0 := by
        rw [← havg]
        ring
      rw [hzero]
      field_simp
      ring

/-- C5: the accumulator follows the claimed streaming recurrence (counter
increment, mean update by `(x - mean)/n`, `M2` update by
`(n-1)(x - mean)^2/n` with the pre-update mean), the reported mean equals the
arithmetic mean of the full sample history, the reported variance equals the
population variance (`Variance() = M2/n` for `n > 0`), and the variance is
exactly 0 for an empty history and for a single sample. -/
theorem C5_welford_correct (xs : List ℚ) :
    (∀ (w : Welford) (x : ℚ), Welford.insert w x =
      ⟨w.avg + (x - w.avg) / ((w.i : ℚ) + 1),
       w.var + (w.i : ℚ) * (x - w.avg) ^ 2 / ((w.i : ℚ) + 1),
       w.i + 1⟩) ∧
    (welfordRun xs).i = xs.length ∧
    (xs ≠ [] → (welfordRun xs).mean = xs.sum / xs.length) ∧
    (xs ≠ [] → (welfordRun xs).variance =
      (xs.map (fun y => (y - xs.sum / xs.length) ^ 2)).sum / xs.length) ∧
    (welfordRun []).variance = 0 ∧
    (∀ x : ℚ, (welfordRun [x]).variance = 0) := by
  obtain ⟨hi, havg, hvar⟩ := welfordRun_state xs
  have hlen : ∀ ys : List ℚ, ys ≠ [] → (0 : ℚ) < ys.length := by
    intro ys hne
    have : 0 < ys.length := List.length_pos.2 hne
    exact_mod_cast this
  have hmean : xs ≠ [] → (welfordRun xs).mean = xs.sum / xs.length := by
    intro hne
    have hl := hlen xs hne
    rw [Welford.mean, eq_div_iff (ne_of_gt hl)]
    exact havg
  refine ⟨fun w x => Welford.insert_eq w x, hi, hmean, ?_,
    by simp [welfordRun, welfordInit, Welford.variance], ?_⟩
  · intro hne
    have hl := hlen xs hne
    have hipos : 0 < (welfordRun xs).i := by
      rw [hi]
      exact List.length_pos.2 hne
    have ha : (welfordRun xs).avg = xs.sum / xs.length := by
      have h := hmean hne
      rwa [Welford.mean] at h
    rw [Welford.variance, if_pos hipos, hi, hvar, ha]
  · intro x
    have h := welfordRun_state [x]
    have hvar1 : (welfordRun [x]).var = 0 := by
      have havg1 : (welfordRun [x]).avg = x := by
        have := h.2.1
        simpa using this
      have := h.2.2
      rw [havg1] at this
      simpa using this
    rw [Welford.variance]
    split
    · rw [hvar1, zero_div]
    · rfl

/-- C5 witness: the accumulator evaluated on the concrete history `[1, 2, 4]`
(arithmetic mean `7/3`, population variance `14/9`). -/
theorem C5_welford_correct_witness :
    (welfordRun [1, 2, 4]).mean = 7 / 3 ∧ (welfordRun [1, 2, 4]).variance = 14 / 9 := by
  have h := C5_welford_correct [1, 2, 4]
  have hm := h.2.2.1 (by simp)
  have hv := h.2.2.2.1 (by simp)
  constructor
  · rw [hm]
    norm_num
  · rw [hv]
    norm_num

/- ====================  C10  ==================== -/

/-- Cars built by `Car.__init__` from a draw `u ∈ (0,1)` satisfy the braking
field discipline. -/
theorem mkCar_wf (i : ℕ) (t u : ℚ) (h0 : 0 < u) (_h1 : u < 1) : WfCar (mkCar i t u) := by
  refine ⟨?_, rfl, rfl⟩
  show 0 < uniform VJA VJB u
  rw [uniform, VJA, VJB]
  nlinarith

/-- C10: for every car released by the green handler, the recorded delay
equals exactly the release time minus the car's stop-decision time: because
`brakedist = speed²/(2·CARACC)` and `braketime = speed/CARACC`, the
elapsed-time terms `(total - 2·brakedist)/speed + braketime` equal the
free-flow baseline `total/speed` and cancel in the delay formula; the
recorded delay is therefore nonnegative whenever the release occurs no
earlier than the stop decision. -/
theorem C10_release_delay (c : Car) (t : ℚ) (hwf : WfCar c) :
    (totalDrive - 2 * c.brakedist) / c.speed + c.braketime = totalDrive / c.speed ∧
    greenDelay c t = t - c.stoptime ∧
    (c.stoptime ≤ t → 0 ≤ greenDelay c t) := by
  obtain ⟨hs, hbd, hbt⟩ := hwf
  have hsne : c.speed ≠ 0 := ne_of_gt hs
  have hcancel : (totalDrive - 2 * c.brakedist) / c.speed + c.braketime =
      totalDrive / c.speed := by
    rw [hbd, hbt, CARACC]
    field_simp
    ring
  have hdelay := greenDelay_eq c t ⟨hs, hbd, hbt⟩
  refine ⟨hcancel, hdelay, ?_⟩
  intro hle
  rw [hdelay]
  linarith

/-- C10 witness: the delay identity evaluated on a concrete released car
(speed 40, stop decision at time 3, release at time 5). -/
theorem C10_release_delay_witness :
    greenDelay ⟨1, 0, 40, 80, 4, true, 3⟩ 5 = 5 - 3 ∧
    0 ≤ greenDelay ⟨1, 0, 40, 80, 4, true, 3⟩ 5 := by
  have h := C10_release_delay ⟨1, 0, 40, 80, 4, true, 3⟩ 5
    (by refine ⟨by norm_num, ?_, ?_⟩ <;> norm_num [CARACC])
  exact ⟨h.2.1, h.2.2 (by norm_num)⟩

/- ====================  C6  ==================== -/

/-- A single scheduler transition preserves the invariant that no pending
event lies in the clock's past, and never moves the clock backwards. -/
theorem sstep_preserves (s s2 : SchedSt) (h : SStep s s2) (hinv : SchedInv s) :
    SchedInv s2 ∧ s.time ≤ s2.time := by
  cases h with
  | insert delta ty i hd =>
    refine ⟨?_, le_refl _⟩
    intro e he
    rcases List.mem_append.1 he with he | he
    · exact hinv e he
    · have : e = ⟨s.time + delta, ty, i⟩ := by simpa using he
      rw [this]
      show s.time ≤ s.time + delta
      linarith
  | dispatch e rest hperm hmin =>
    refine ⟨?_, hinv e (hperm.mem_iff.2 (List.mem_cons_self e rest))⟩
    intro e2 he2
    exact hmin e2 (hperm.mem_iff.2 (List.mem_cons_of_mem e he2))

/-- C6: the clock observed at each successive event dispatch is monotonically
non-decreasing.  Every `insert` call site passes a non-negative delay - the
fixed timer constants are non-negative, the pedestrian arrive delta
`atlight`, the car arrive delta `(before - brakedist)/speed` and the car exit
delta `total/speed` are non-negative for entities built from draws
`u ∈ (0,1)`, and `exponential` yields a non-negative inter-arrival delta -
and along any sequence of scheduler transitions (inserts at `clock + delta`
with `delta ≥ 0`, dispatches that remove a minimum-time event and advance the
clock to its time) the invariant that no pending event is in the past is
maintained and the clock never decreases. -/
theorem C6_clock_monotone :
    (0 ≤ YELLOWTIMEOUT ∧ 0 ≤ REDTIMEOUT ∧ 0 ≤ GREENTIMEOUT ∧ (0 : ℚ) ≤ 60) ∧
    (∀ (i : ℕ) (t u : ℚ), 0 < u → u < 1 → 0 ≤ pedArriveDelta (mkPed i t u)) ∧
    (∀ (i : ℕ) (t u : ℚ), 0 < u → u < 1 →
      0 ≤ carArriveDelta (mkCar i t u) ∧ 0 ≤ carExitDelta (mkCar i t u)) ∧
    (∀ l u : ℝ, 0 < l → 0 ≤ u → u < 1 →
      ∃ d, exponential l u = Except.ok d ∧ 0 ≤ d) ∧
    (∀ s s2 : SchedSt, SchedInv s → Relation.ReflTransGen SStep s s2 →
      SchedInv s2 ∧ s.time ≤ s2.time) := by
  refine ⟨⟨by norm_num [YELLOWTIMEOUT], by norm_num [REDTIMEOUT],
    by norm_num [GREENTIMEOUT], by norm_num⟩, ?_, ?_, ?_, ?_⟩
  · intro i t u hu0 hu1
    have hspeed : 0 < uniform VKA VKB u := by
      rw [uniform, VKA, VKB]
      nlinarith
    show (0 : ℚ) ≤ (BLOCKWIDTH + STREETWIDTH) / uniform VKA VKB u
    apply le_of_lt
    apply div_pos _ hspeed
    norm_num [BLOCKWIDTH, STREETWIDTH]
  · intro i t u hu0 hu1
    have hs : 0 < uniform VJA VJB u ∧ uniform VJA VJB u < 52 := by
      rw [uniform, VJA, VJB]
      constructor <;> nlinarith
    constructor
    · show (0 : ℚ) ≤ (beforeDist - (uniform VJA VJB u) ^ 2 / (2 * CARACC)) / uniform VJA VJB u
      apply le_of_lt
      apply div_pos _ hs.1
      have hnum : (uniform VJA VJB u) ^ 2 / (2 * CARACC) < 1281 := by
        rw [CARACC]
        nlinarith [hs.1, hs.2]
      have hbd : beforeDist = 1281 := by
        rw [beforeDist, totalDrive]
        norm_num [BLOCKWIDTH, STREETWIDTH, CROSSWIDTH]
      rw [hbd]
      linarith
    · show (0 : ℚ) ≤ totalDrive / uniform VJA VJB u
      apply le_of_lt
      apply div_pos _ hs.1
      norm_num [totalDrive, BLOCKWIDTH, STREETWIDTH]
  · intro l u hl hu0 hu1
    refine ⟨-l * Real.log (1 - u), ?_, ?_⟩
    · rw [exponential, if_neg (not_le.2 hl)]
    · have hlog : Real.log (1 - u) ≤ 0 :=
        Real.log_nonpos (by linarith) (by linarith)
      nlinarith
  · intro s s2 hinv h
    induction h with
    | refl => exact ⟨hinv, le_refl _⟩
    | tail hab hbc ih =>
      obtain ⟨hinvb, hle⟩ := ih
      obtain ⟨hinvc, hle2⟩ := sstep_preserves _ _ hbc hinvb
      exact ⟨hinvc, le_trans hle hle2⟩

/-- C6 witness: the scheduler invariant statement applied to the initial
state (empty queue, clock 0) with the empty transition sequence, and a
call-site delta evaluated at a concrete draw. -/
theorem C6_clock_monotone_witness :
    (SchedInv ⟨0, []⟩ ∧ (0 : ℚ) ≤ 0) ∧ 0 ≤ pedArriveDelta (mkPed 1 0 (1 / 2)) :=
  ⟨C6_clock_monotone.2.2.2.2 ⟨0, []⟩ ⟨0, []⟩
      (fun e he => absurd he (List.not_mem_nil e)) Relation.ReflTransGen.refl,
   C6_clock_monotone.2.1 1 0 (1 / 2) (by norm_num) (by norm_num)⟩

